import Mathlib

/-!
Shallow embedding of the audio-effects core of the repository
(`backend/services/audio_effects.py` and the effect-dispatch step of
`backend/services/audio_pipeline.py`).

Conventions of the embedding:
* numpy floating-point sample buffers become lists of rationals (`List ℚ`);
  all arithmetic is exact.
* a signal is either mono (one channel) or stereo (two channels), mirroring
  the `(samples,)` / `(2, samples)` numpy layouts the code handles.
* transcendental library functions the code calls (`np.sin`, `np.cos`,
  `np.sqrt`, `10 ** x`, `np.pi`, and librosa's pitch shifter) are passed in
  as an explicit bundle `FloatOps` of uninterpreted rational functions, so
  every definition stays computable; facts such as `0 < 10^x` enter theorems
  as hypotheses on that bundle where a claim needs them.
* Python `int(x)` applied to the nonnegative quantities of this code is
  truncation toward zero, i.e. the floor; on products of naturals divided by
  1000 it is natural-number division.
-/

/-- Bundle of the external real-valued library functions the DSP code calls
(`np.sin`, `np.cos`, `np.sqrt`, `10 ** x`, `np.pi`, and
`librosa.effects.pitch_shift` applied to one channel), kept abstract as
rational functions so the embedding is computable. -/
structure FloatOps where
  fsin : ℚ → ℚ
  fcos : ℚ → ℚ
  fsqrt : ℚ → ℚ
  exp10 : ℚ → ℚ
  fpi : ℚ
  pitchShiftCh : ℕ → ℚ → List ℚ → List ℚ

/-- A PCM signal buffer: mono `(samples,)` or stereo `(2, samples)`. -/
inductive Signal where
  | mono (samples : List ℚ)
  | stereo (left right : List ℚ)
deriving DecidableEq, Repr

namespace Signal

/-- The list of channels of a signal. -/
def channels : Signal → List (List ℚ)
  | mono l => [l]
  | stereo a b => [a, b]

/-- Number of channels (`1` for mono, `2` for stereo). -/
def numChannels : Signal → ℕ
  | mono _ => 1
  | stereo _ _ => 2

/-- Per-channel lengths, in channel order. -/
def channelLens (s : Signal) : List ℕ :=
  s.channels.map List.length

/-- `signal.shape[-1]`: the per-channel sample count (first channel for
stereo; the numpy layout guarantees both channels agree). -/
def numSamples : Signal → ℕ
  | mono l => l.length
  | stereo a _ => a.length

/-- The well-formedness invariant of the numpy `(2, samples)` layout:
stereo channels have equal length. -/
def wellFormed : Signal → Prop
  | mono _ => True
  | stereo a b => a.length = b.length

instance : DecidablePred wellFormed := by
  intro s
  cases s <;> simp [wellFormed] <;> infer_instance

/-- All samples of all channels in one list (the elementwise view numpy
reductions such as `np.max(np.abs(signal))` take). -/
def allSamples : Signal → List ℚ
  | mono l => l
  | stereo a b => a ++ b

/-- Apply the same per-channel transformation to every channel (the
vectorised numpy operations act on each channel identically). -/
def mapChannels (f : List ℚ → List ℚ) : Signal → Signal
  | mono l => mono (f l)
  | stereo a b => stereo (f a) (f b)

/-- Multiply every sample by a scalar (`signal * c`). -/
def scale (c : ℚ) (s : Signal) : Signal :=
  s.mapChannels (List.map (· * c))

end Signal

/-- `np.max(np.abs(l))` over a list, taking `0` on the empty list. -/
def listPeak (l : List ℚ) : ℚ :=
  l.foldr (fun x m => max |x| m) 0

/-- `np.max(np.abs(signal))` over all channels. -/
def peakAbs (s : Signal) : ℚ :=
  listPeak s.allSamples

/-- `peak_normalize` (audio_effects.py lines 23-32): scale the signal so its
maximum absolute value equals `target_peak`; a silent signal (peak `0`) is
returned unchanged.  The Python default for `target_peak` is `0.95 = 19/20`,
spelled out at every call site of this embedding. -/
def peak_normalize (signal : Signal) (target_peak : ℚ) : Signal :=
  let peak := peakAbs signal
  if peak = 0 then signal
  else signal.scale (target_peak / peak)

-- Basic facts about `listPeak`.

theorem listPeak_nonneg (l : List ℚ) : 0 ≤ listPeak l := by
  induction l with
  | nil => simp [listPeak]
  | cons x xs ih =>
    simp only [listPeak, List.foldr_cons] at *
    exact le_trans ih (le_max_right _ _)

theorem abs_le_listPeak {x : ℚ} {l : List ℚ} (hx : x ∈ l) : |x| ≤ listPeak l := by
  induction l with
  | nil => cases hx
  | cons y ys ih =>
    simp only [listPeak, List.foldr_cons]
    rcases List.mem_cons.mp hx with h | h
    · exact h ▸ le_max_left _ _
    · exact le_trans (ih h) (le_max_right _ _)

theorem listPeak_eq_zero_iff (l : List ℚ) :
    listPeak l = 0 ↔ ∀ x ∈ l, x = 0 := by
  induction l with
  | nil => simp [listPeak]
  | cons y ys ih =>
    simp only [listPeak, List.foldr_cons] at *
    constructor
    · intro h
      have hy : |y| ≤ 0 := h ▸ le_max_left _ _
      have hys : listPeak ys ≤ 0 := h ▸ le_max_right _ _
      intro x hx
      rcases List.mem_cons.mp hx with rfl | hx
      · exact abs_eq_zero.mp (le_antisymm hy (abs_nonneg _))
      · exact (ih.mp (le_antisymm hys (listPeak_nonneg ys))) x hx
    · intro h
      have hy : y = 0 := h y (List.mem_cons_self _ _)
      have hys : listPeak ys = 0 := ih.mpr (fun x hx => h x (List.mem_cons_of_mem _ hx))
      simp only [listPeak] at hys
      simp [hy, hys]

theorem listPeak_map_mul (l : List ℚ) (c : ℚ) :
    listPeak (l.map (· * c)) = listPeak l * |c| := by
  induction l with
  | nil => simp [listPeak]
  | cons y ys ih =>
    simp only [listPeak, List.map_cons, List.foldr_cons] at *
    rw [ih, abs_mul, max_mul_of_nonneg _ _ (abs_nonneg c)]

theorem listPeak_append (a b : List ℚ) :
    listPeak (a ++ b) = max (listPeak a) (listPeak b) := by
  induction a with
  | nil =>
    simpa [listPeak] using (max_eq_right (listPeak_nonneg b)).symm
  | cons y ys ih =>
    simp only [listPeak, List.cons_append, List.foldr_cons] at *
    rw [ih, max_assoc]

theorem peakAbs_nonneg (s : Signal) : 0 ≤ peakAbs s :=
  listPeak_nonneg _

theorem peakAbs_scale (s : Signal) (c : ℚ) :
    peakAbs (s.scale c) = peakAbs s * |c| := by
  cases s with
  | mono l => simp [peakAbs, Signal.scale, Signal.mapChannels, Signal.allSamples, listPeak_map_mul]
  | stereo a b =>
    simp only [peakAbs, Signal.scale, Signal.mapChannels, Signal.allSamples]
    rw [← List.map_append, listPeak_map_mul, listPeak_append]

/-- The peak after normalising a non-silent signal equals the (nonnegative)
target. -/
theorem peakAbs_peak_normalize (s : Signal) (tp : ℚ) (hs : peakAbs s ≠ 0)
    (htp : 0 ≤ tp) : peakAbs (peak_normalize s tp) = tp := by
  have hpos : 0 < peakAbs s := lt_of_le_of_ne (peakAbs_nonneg s) (Ne.symm hs)
  have hc : 0 ≤ tp / peakAbs s := div_nonneg htp (le_of_lt hpos)
  simp only [peak_normalize, if_neg hs]
  rw [peakAbs_scale, abs_of_nonneg hc]
  field_simp

/-- Normalising preserves channel count and per-channel lengths. -/
theorem channelLens_peak_normalize (s : Signal) (tp : ℚ) :
    (peak_normalize s tp).channelLens = s.channelLens := by
  simp only [peak_normalize]
  split
  · rfl
  · cases s <;> simp [Signal.scale, Signal.mapChannels, Signal.channelLens, Signal.channels]

/-- `reverse_audio` (audio_effects.py lines 39-49): reverse along the time
axis; for stereo, `signal[:, ::-1]` reverses each channel. -/
def reverse_audio (signal : Signal) (sr : ℕ) : Signal :=
  match signal with
  | .mono l => .mono l.reverse
  | .stereo a b => .stereo a.reverse b.reverse

/-- `pitch_shift` (audio_effects.py lines 56-76): apply librosa's pitch
shifter (the `pitchShiftCh` component of `FloatOps`) to each channel
independently, then peak-normalise. -/
def pitch_shift (F : FloatOps) (signal : Signal) (sr : ℕ) (semitones : ℚ) : Signal :=
  peak_normalize (signal.mapChannels (F.pitchShiftCh sr semitones)) (19/20)

/-- `output[offset:offset+len(src)] += src * gain`, where the written span is
truncated to the end of `out` (the code computes `end = min(offset+N,
out_len)` and slices `src` to `end-offset` so the shapes agree). -/
def addInto (g : ℚ) : List ℚ → List ℚ → List ℚ
  | out, [] => out
  | [], _ => []
  | x :: out, y :: src => (x + y * g) :: addInto g out src

/-- In-place slice addition at an offset: `out[offset:end] += src * g`. -/
def addScaledAt (out src : List ℚ) (offset : ℕ) (g : ℚ) : List ℚ :=
  out.take offset ++ addInto g (out.drop offset) src

/-- One channel of `reverb` (audio_effects.py lines 100-126): zero-extend by
`d * 5` samples, copy the input into the front, then for each reflection
`i = 1..5` add the input scaled by `decay^i` at offset `d * i`. -/
def reverbChannel (l : List ℚ) (d : ℕ) (decay : ℚ) : List ℚ :=
  let out0 := l ++ List.replicate (d * 5) (0 : ℚ)
  (List.range 5).foldl (fun out i => addScaledAt out l (d * (i + 1)) (decay ^ (i + 1))) out0

/-- The reverb buffer before the final normalisation (both the mono and the
stereo branch of the code perform the identical per-channel computation). -/
def reverbRaw (signal : Signal) (d : ℕ) (decay : ℚ) : Signal :=
  signal.mapChannels (fun l => reverbChannel l d decay)

/-- `reverb` (audio_effects.py lines 83-127): `delay_samples =
int(sr * delay_ms / 1000)` (float division then truncation, i.e. natural
division of the nonnegative product), echo construction, peak-normalise. -/
def reverb (signal : Signal) (sr : ℕ) (decay : ℚ) (delay_ms : ℕ) : Signal :=
  let delay_samples := sr * delay_ms / 1000
  peak_normalize (reverbRaw signal delay_samples decay) (19/20)

/-- The three `ValueError`s `trim_audio` can raise (audio_effects.py lines
211-218), in source order: `start_time must be >= 0`, `end_time exceeds
duration`, `start_time must be less than end_time`. -/
inductive TrimError where
  | startNeg
  | endExceedsDuration
  | startNotLtEnd
deriving DecidableEq, Repr

/-- Python slice `l[a:b]` for `0 ≤ a, b`. -/
def pySlice (l : List ℚ) (a b : ℕ) : List ℚ :=
  (l.drop a).take (b - a)

/-- `trim_audio` (audio_effects.py lines 189-230): validate
`0 ≤ start_time < end_time ≤ duration` (with `end_time` defaulting to the
full duration), then slice `[int(start_time*sr), int(end_time*sr))` on every
channel.  In the slicing branch both products are nonnegative, so Python's
truncating `int()` is the floor. -/
def trim_audio (signal : Signal) (sr : ℕ) (start_time : ℚ)
    (end_time? : Option ℚ) : Except TrimError Signal :=
  let total_samples := signal.numSamples
  let duration : ℚ := total_samples / sr
  let end_time := end_time?.getD duration
  if start_time < 0 then .error .startNeg
  else if duration < end_time then .error .endExceedsDuration
  else if end_time ≤ start_time then .error .startNotLtEnd
  else
    let start_sample := (⌊start_time * sr⌋).toNat
    let end_sample := (⌊end_time * sr⌋).toNat
    .ok (signal.mapChannels (fun l => pySlice l start_sample end_sample))

/-- `np.stack([signal, signal.copy()])` for mono input, identity on stereo:
the left/right channel pair the widening and 8D effects start from. -/
def ensureStereo : Signal → List ℚ × List ℚ
  | .mono l => (l, l)
  | .stereo a b => (a, b)

/-- `stereo_widen` (audio_effects.py lines 134-182): inter-channel delay by
zero-padding, gain reduction `10^(-gain_diff_db/20)` on the delayed right
channel, mid/side widening with a fixed `1.3` side boost, peak-normalise. -/
def stereo_widen (F : FloatOps) (signal : Signal) (sr : ℕ) (delay_ms : ℕ)
    (gain_diff_db : ℚ) : Signal :=
  let p := ensureStereo signal
  let delay_samples := sr * delay_ms / 1000
  let gain_factor := F.exp10 (-gain_diff_db / 20)
  let right_delayed := (List.replicate delay_samples (0 : ℚ) ++ p.2).map (· * gain_factor)
  let left_padded := p.1 ++ List.replicate delay_samples (0 : ℚ)
  let mid := List.zipWith (fun a b => (a + b) / 2) left_padded right_delayed
  let side := (List.zipWith (fun a b => (a - b) / 2) left_padded right_delayed).map
    (· * (13/10))
  let new_left := List.zipWith (· + ·) mid side
  let new_right := List.zipWith (· - ·) mid side
  peak_normalize (.stereo new_left new_right) (19/20)

/-- The 8D panning curve after the intensity scaling (audio_effects.py lines
276-280): `0.5 + intensity * (0.5 + 0.5*sin(2π·pan_speed·n/sr) - 0.5)`. -/
def eightD_panCurve (F : FloatOps) (sr : ℕ) (pan_speed intensity : ℚ) (n : ℕ) : ℚ :=
  let c := 1/2 + 1/2 * F.fsin (2 * F.fpi * pan_speed * ((n : ℚ) / sr))
  1/2 + intensity * (c - 1/2)

/-- The centred mono down-mix `(L + R) / 2` (audio_effects.py line 287). -/
def eightD_monoMix (signal : Signal) (n : ℕ) : ℚ :=
  let p := ensureStereo signal
  (p.1.getD n 0 + p.2.getD n 0) / 2

/-- Pre-crossfeed left channel `mono_mix * sqrt(1 - pan)` (lines 284, 290). -/
def eightD_leftOut (F : FloatOps) (signal : Signal) (sr : ℕ)
    (pan_speed intensity : ℚ) (n : ℕ) : ℚ :=
  eightD_monoMix signal n * F.fsqrt (1 - eightD_panCurve F sr pan_speed intensity n)

/-- Pre-crossfeed right channel `mono_mix * sqrt(pan)` (lines 283, 291). -/
def eightD_rightOut (F : FloatOps) (signal : Signal) (sr : ℕ)
    (pan_speed intensity : ℚ) (n : ℕ) : ℚ :=
  eightD_monoMix signal n * F.fsqrt (eightD_panCurve F sr pan_speed intensity n)

/-- `eight_d_audio` (audio_effects.py lines 237-299): equal-power auto-pan of
the mono down-mix, then (for `crossfeed > 0`) the sequential crossfeed in
which the right channel is recomputed from the already-updated left channel,
then peak-normalise. -/
def eight_d_audio (F : FloatOps) (signal : Signal) (sr : ℕ)
    (pan_speed_hz intensity crossfeed : ℚ) : Signal :=
  let num_samples := (ensureStereo signal).1.length
  let leftOut := eightD_leftOut F signal sr pan_speed_hz intensity
  let rightOut := eightD_rightOut F signal sr pan_speed_hz intensity
  if 0 < crossfeed then
    let lo := fun n => leftOut n * (1 - crossfeed) + rightOut n * crossfeed
    let ro := fun n => rightOut n * (1 - crossfeed) + lo n * crossfeed
    peak_normalize (.stereo ((List.range num_samples).map lo)
      ((List.range num_samples).map ro)) (19/20)
  else
    peak_normalize (.stereo ((List.range num_samples).map leftOut)
      ((List.range num_samples).map rightOut)) (19/20)

/-- The seven fixed equalizer bands (audio_effects.py lines 336-344). -/
inductive Band where
  | sub_bass | bass | low_mid | mid | high_mid | presence | brilliance
deriving DecidableEq, Repr

/-- Centre frequency of each band (Hz). -/
def Band.freq : Band → ℚ
  | .sub_bass => 60
  | .bass => 170
  | .low_mid => 500
  | .mid => 1000
  | .high_mid => 3000
  | .presence => 6000
  | .brilliance => 12000

/-- The bands in the dictionary order the code iterates them. -/
def allBands : List Band :=
  [.sub_bass, .bass, .low_mid, .mid, .high_mid, .presence, .brilliance]

/-- A normalised biquad second-order section
`(b0/a0, b1/a0, b2/a0, 1, a1/a0, a2/a0)`. -/
structure Biquad where
  b0 : ℚ
  b1 : ℚ
  b2 : ℚ
  a1 : ℚ
  a2 : ℚ
deriving DecidableEq, Repr

/-- `_peaking_eq_sos` (audio_effects.py lines 351-367): design a peaking EQ
section from the standard formulas, with `A = 10^(gain_db/40)` and
`w0 = 2π·freq/fs` going through the abstract float operations. -/
def peakingEqSos (F : FloatOps) (freq gain_db q : ℚ) (fs : ℕ) : Biquad :=
  let A := F.exp10 (gain_db / 40)
  let w0 := 2 * F.fpi * freq / fs
  let alpha := F.fsin w0 / (2 * q)
  let b0 := 1 + alpha * A
  let b1 := -2 * F.fcos w0
  let b2 := 1 - alpha * A
  let a0 := 1 + alpha / A
  let a1 := -2 * F.fcos w0
  let a2 := 1 - alpha / A
  ⟨b0 / a0, b1 / a0, b2 / a0, a1 / a0, a2 / a0⟩

/-- One step of a direct-form-II-transposed biquad: output sample and
updated `(z1, z2)` state. -/
def biquadStep (c : Biquad) (st : ℚ × ℚ) (x : ℚ) : ℚ × (ℚ × ℚ) :=
  let y := c.b0 * x + st.1
  (y, (c.b1 * x - c.a1 * y + st.2, c.b2 * x - c.a2 * y))

/-- Run one biquad section over a channel from a given state. -/
def biquadRun (c : Biquad) : ℚ × ℚ → List ℚ → List ℚ
  | _, [] => []
  | st, x :: xs =>
    let r := biquadStep c st x
    r.1 :: biquadRun c r.2 xs

/-- `scipy.signal.sosfilt`: cascade the sections, each filtering the
previous section's output, zero initial state. -/
def sosfilt (sections : List Biquad) (l : List ℚ) : List ℚ :=
  sections.foldl (fun acc c => biquadRun c (0, 0) acc) l

/-- `equalizer` (audio_effects.py lines 306-397): collect one section per
active band (skipping `|gain| < 0.01` dB and bands at or above Nyquist),
bypass with an unmodified copy when none is active, otherwise filter each
channel through the cascade and peak-normalise. -/
def equalizer (F : FloatOps) (signal : Signal) (sr : ℕ) (gains : Band → ℚ) : Signal :=
  let active := allBands.filter
    (fun b => decide (1/100 ≤ |gains b|) && decide (b.freq < (sr : ℚ) / 2))
  let sos_sections := active.map (fun b => peakingEqSos F b.freq (gains b) (7/5) sr)
  if sos_sections.isEmpty then signal
  else peak_normalize (signal.mapChannels (sosfilt sos_sections)) (19/20)

/-- One dispatched effect invocation with its validated parameters, one
constructor per arm of the `match` in `_apply_effect`
(audio_pipeline.py lines 61-119). -/
inductive EffectCall where
  | reverse
  | pitchShift (semitones : ℚ)
  | reverbCall (decay : ℚ) (delay_ms : ℕ)
  | stereoWiden (delay_ms : ℕ) (gain_diff_db : ℚ)
  | trim (start_time : ℚ) (end_time : Option ℚ)
  | eightD (pan_speed_hz intensity crossfeed : ℚ)
  | equalize (gains : Band → ℚ)

/-- `_apply_effect` (audio_pipeline.py lines 61-119): route to the matching
effect function.  Only trim can fail. -/
def apply_effect (F : FloatOps) (signal : Signal) (sr : ℕ) :
    EffectCall → Except TrimError Signal
  | .reverse => .ok (reverse_audio signal sr)
  | .pitchShift st => .ok (pitch_shift F signal sr st)
  | .reverbCall decay delay_ms => .ok (reverb signal sr decay delay_ms)
  | .stereoWiden delay_ms gdb => .ok (stereo_widen F signal sr delay_ms gdb)
  | .trim st et => trim_audio signal sr st et
  | .eightD ps it cf => .ok (eight_d_audio F signal sr ps it cf)
  | .equalize gains => .ok (equalizer F signal sr gains)

/-- Steps 4-5 of `process_audio` (audio_pipeline.py lines 161-164): apply
the requested effect, then pass the result through `peak_normalize`. -/
def process_effect (F : FloatOps) (signal : Signal) (sr : ℕ)
    (call : EffectCall) : Except TrimError Signal :=
  (apply_effect F signal sr call).map (fun s => peak_normalize s (19/20))

-- Further helper lemmas about normalisation and reversal.

theorem peak_normalize_silent (s : Signal) (tp : ℚ) (h : peakAbs s = 0) :
    peak_normalize s tp = s := by
  simp [peak_normalize, h]

theorem peak_normalize_scaled (s : Signal) (tp : ℚ) (h : peakAbs s ≠ 0) :
    peak_normalize s tp = s.scale (tp / peakAbs s) := by
  simp [peak_normalize, h]

theorem Signal.scale_one (s : Signal) : s.scale 1 = s := by
  cases s <;> simp [Signal.scale, Signal.mapChannels]

theorem listPeak_nil : listPeak [] = 0 := rfl

theorem listPeak_cons (x : ℚ) (l : List ℚ) :
    listPeak (x :: l) = max |x| (listPeak l) := rfl

theorem reverse_getD (l : List ℚ) (i : ℕ) (h : i < l.length) :
    l.reverse.getD i 0 = l.getD (l.length - 1 - i) 0 := by
  have h' : i < l.reverse.length := by simpa using h
  rw [List.getD_eq_getElem _ _ h', List.getD_eq_getElem _ _ (by omega : l.length - 1 - i < l.length)]
  simp [List.getElem_reverse]

/-- C1: for every buffer with non-zero peak, `peak_normalize` scales every
sample by `target_peak / peak` and the result's maximum absolute value
equals the (nonnegative) target; a silent buffer is returned unchanged. -/
theorem claim_C1 (s : Signal) (tp : ℚ) (htp : 0 ≤ tp) :
    (peakAbs s ≠ 0 →
      peak_normalize s tp = s.scale (tp / peakAbs s) ∧
      peakAbs (peak_normalize s tp) = tp) ∧
    (peakAbs s = 0 → peak_normalize s tp = s) := by
  refine ⟨fun h => ⟨peak_normalize_scaled s tp h, peakAbs_peak_normalize s tp h htp⟩,
    fun h => peak_normalize_silent s tp h⟩

theorem claim_C1_witness :
    (peak_normalize (Signal.mono [1/2, -1/4]) (19/20)
        = (Signal.mono [1/2, -1/4]).scale ((19/20) / peakAbs (Signal.mono [1/2, -1/4]))
      ∧ peakAbs (peak_normalize (Signal.mono [1/2, -1/4]) (19/20)) = 19/20)
    ∧ peak_normalize (Signal.stereo [0, 0] [0]) (19/20) = Signal.stereo [0, 0] [0] :=
  ⟨(claim_C1 (Signal.mono [1/2, -1/4]) (19/20) (by norm_num)).1
      (by norm_num [peakAbs, Signal.allSamples, listPeak_cons, listPeak_nil, abs_of_pos]),
   (claim_C1 (Signal.stereo [0, 0] [0]) (19/20) (by norm_num)).2
      (by norm_num [peakAbs, Signal.allSamples, listPeak_cons, listPeak_nil])⟩

/-- C10: `peak_normalize` is idempotent in exact arithmetic (for a
nonnegative target peak, as used by the pipeline with `0.95`), so the
pipeline's second normalisation pass leaves an already-normalised result
unchanged. -/
theorem claim_C10 (s : Signal) (tp : ℚ) (htp : 0 ≤ tp) :
    peak_normalize (peak_normalize s tp) tp = peak_normalize s tp := by
  by_cases h : peakAbs s = 0
  · have e : peak_normalize s tp = s := peak_normalize_silent s tp h
    rw [e, e]
  · have e1 : peakAbs (peak_normalize s tp) = tp := peakAbs_peak_normalize s tp h htp
    by_cases h1 : tp = 0
    · exact peak_normalize_silent _ _ (by rw [e1, h1])
    · rw [peak_normalize_scaled _ _ (by rw [e1]; exact h1), e1, div_self h1,
        Signal.scale_one]

theorem claim_C10_witness :
    peak_normalize (peak_normalize (Signal.mono [1/2, -1/4]) (19/20)) (19/20)
      = peak_normalize (Signal.mono [1/2, -1/4]) (19/20) :=
  claim_C10 (Signal.mono [1/2, -1/4]) (19/20) (by norm_num)

/-- C5: the dispatcher's result always passes through the normaliser as its
last step (audio_pipeline.py lines 161-164), so for every one of the seven
effects, whenever processing succeeds and the returned buffer is non-silent,
its maximum absolute sample value equals the target peak `0.95`. -/
theorem claim_C5 (F : FloatOps) (s : Signal) (sr : ℕ) (call : EffectCall)
    (out : Signal) (hout : process_effect F s sr call = .ok out)
    (hns : peakAbs out ≠ 0) : peakAbs out = 19/20 := by
  obtain ⟨y, hy, rfl⟩ :
      ∃ y, apply_effect F s sr call = .ok y ∧ out = peak_normalize y (19/20) := by
    cases h : apply_effect F s sr call with
    | ok y =>
      refine ⟨y, rfl, ?_⟩
      simp only [process_effect, h, Except.map] at hout
      exact (Except.ok.injEq _ _ ▸ hout).symm
    | error e => simp [process_effect, h, Except.map] at hout
  by_cases hy0 : peakAbs y = 0
  · exact absurd (by rw [peak_normalize_silent y _ hy0]; exact hy0) hns
  · exact peakAbs_peak_normalize y _ hy0 (by norm_num)

/-- A fixed interpretation of the abstract float operations, used to
instantiate witnesses on concrete inputs. -/
def F0 : FloatOps :=
  ⟨fun _ => 0, fun _ => 1, fun _ => 0, fun _ => 1, 3, fun _ _ l => l⟩

theorem claim_C5_witness :
    process_effect F0 (Signal.mono [1/2]) 1 .reverse = .ok (Signal.mono [19/20]) ∧
    peakAbs (Signal.mono [19/20]) = 19/20 := by
  have h : process_effect F0 (Signal.mono [1/2]) 1 .reverse = .ok (Signal.mono [19/20]) := by
    norm_num [process_effect, apply_effect, reverse_audio, Except.map, peak_normalize,
      peakAbs, Signal.allSamples, listPeak_cons, listPeak_nil, abs_of_pos,
      Signal.scale, Signal.mapChannels]
  exact ⟨h, claim_C5 F0 (Signal.mono [1/2]) 1 .reverse (Signal.mono [19/20]) h
    (by norm_num [peakAbs, Signal.allSamples, listPeak_cons, listPeak_nil, abs_of_pos])⟩

/-- C6: reversing twice is the identity; a single reverse preserves channel
count and per-channel lengths exactly, and sample `i` of each output channel
equals sample `N-1-i` of the corresponding input channel. -/
theorem claim_C6 (s : Signal) (sr : ℕ) :
    reverse_audio (reverse_audio s sr) sr = s
    ∧ (reverse_audio s sr).numChannels = s.numChannels
    ∧ (reverse_audio s sr).channelLens = s.channelLens
    ∧ ∀ ch i, i < (s.channels.getD ch []).length →
        ((reverse_audio s sr).channels.getD ch []).getD i 0
          = (s.channels.getD ch []).getD ((s.channels.getD ch []).length - 1 - i) 0 := by
  cases s with
  | mono l =>
    refine ⟨by simp [reverse_audio], rfl, by simp [reverse_audio, Signal.channelLens, Signal.channels], ?_⟩
    intro ch i h
    match ch with
    | 0 => exact reverse_getD l i (by simpa [Signal.channels] using h)
    | n + 1 => simp [Signal.channels] at h
  | stereo a b =>
    refine ⟨by simp [reverse_audio], rfl, by simp [reverse_audio, Signal.channelLens, Signal.channels], ?_⟩
    intro ch i h
    match ch with
    | 0 => exact reverse_getD a i (by simpa [Signal.channels] using h)
    | 1 => exact reverse_getD b i (by simpa [Signal.channels] using h)
    | n + 2 => simp [Signal.channels] at h

theorem claim_C6_witness :
    reverse_audio (reverse_audio (Signal.stereo [1, 2] [3, 4, 5]) 7) 7
        = Signal.stereo [1, 2] [3, 4, 5]
    ∧ ((reverse_audio (Signal.stereo [1, 2] [3, 4, 5]) 7).channels.getD 1 []).getD 0 0
        = ((Signal.stereo [1, 2] [3, 4, 5]).channels.getD 1 []).getD 2 0 :=
  ⟨(claim_C6 (Signal.stereo [1, 2] [3, 4, 5]) 7).1,
   by simpa using (claim_C6 (Signal.stereo [1, 2] [3, 4, 5]) 7).2.2.2 1 0 (by decide)⟩

/-- C2 counterexample: a zero-sample buffer makes `trim_audio` fail through
the *range checks* — here `start_time must be less than end_time` — rather
than any empty-signal check; the code raises no `EmptySignal` at all (the
error type of the embedding enumerates exactly the three `raise` sites of
the source). -/
theorem claim_C2_counterexample :
    trim_audio (Signal.mono []) 1 0 none = .error TrimError.startNotLtEnd := by
  norm_num [trim_audio, Signal.numSamples]

/-- C2 (amended): for every input buffer with zero samples, `trim_audio`
fails, but with one of the three range-check errors (`InvalidRange` in the
spec's taxonomy) — there is no `EmptySignal` check before (or anywhere in)
the range validation. -/
theorem claim_C2_amended (s : Signal) (sr : ℕ) (st : ℚ) (et : Option ℚ)
    (h : s.numSamples = 0) :
    ∃ e, trim_audio s sr st et = .error e := by
  simp only [trim_audio, h, Nat.cast_zero, zero_div]
  split_ifs with h1 h2 h3
  · exact ⟨_, rfl⟩
  · exact ⟨_, rfl⟩
  · exact ⟨_, rfl⟩
  · exact absurd (le_trans (not_lt.mp h2) (not_lt.mp h1)) h3

theorem claim_C2_amended_witness :
    ∃ e, trim_audio (Signal.stereo [] []) 2 1 (some 5) = .error e :=
  claim_C2_amended (Signal.stereo [] []) 2 1 (some 5) rfl

/-- C7: if every equalizer band is inactive (gain below `0.01` dB in absolute
value, or centre frequency at or above Nyquist), `equalizer` returns the
input unchanged with no normalisation; in particular all-zero gains (the
defaults) give back the input. -/
theorem claim_C7 (F : FloatOps) (s : Signal) (sr : ℕ) (gains : Band → ℚ)
    (h : ∀ b : Band, |gains b| < 1/100 ∨ (sr : ℚ) / 2 ≤ b.freq) :
    equalizer F s sr gains = s ∧ equalizer F s sr (fun _ => 0) = s := by
  have key : ∀ g : Band → ℚ, (∀ b : Band, |g b| < 1/100 ∨ (sr : ℚ) / 2 ≤ b.freq) →
      equalizer F s sr g = s := by
    intro g hg
    have hfil : allBands.filter
        (fun b => decide (1/100 ≤ |g b|) && decide (b.freq < (sr : ℚ) / 2)) = [] := by
      apply List.filter_eq_nil_iff.mpr
      intro b _
      rcases hg b with hb | hb
      · simp only [Bool.and_eq_true, decide_eq_true_eq, not_and]
        exact fun hc _ => absurd hc (not_le.mpr hb)
      · simp only [Bool.and_eq_true, decide_eq_true_eq, not_and]
        exact fun _ hc => absurd hc (not_lt.mpr hb)
    simp only [equalizer, hfil]
    rfl
  exact ⟨key gains h, key (fun _ => 0) (fun b => Or.inl (by norm_num))⟩

theorem claim_C7_witness :
    equalizer F0 (Signal.mono [1, 2]) 44100 (fun _ => 1/200) = Signal.mono [1, 2] ∧
    equalizer F0 (Signal.mono [1, 2]) 44100 (fun _ => 0) = Signal.mono [1, 2] :=
  claim_C7 F0 (Signal.mono [1, 2]) 44100 (fun _ => 1/200)
    (fun _ => Or.inl (by norm_num [abs_of_pos]))

/-- C3 counterexample: with a 2-sample mono buffer at `sr = 1`,
`trim(0.7, 2.0)` keeps both samples (`int()` truncates `0.7·1` to `0`),
whereas slicing at `round(0.7·1) = 1` as the claim states would drop the
first sample. -/
theorem claim_C3_counterexample :
    trim_audio (Signal.mono [10, 20]) 1 (7/10) (some 2) = .ok (Signal.mono [10, 20])
    ∧ Signal.mono [10, 20]
        ≠ Signal.mono (pySlice [10, 20] (round ((7/10 : ℚ) * (1:ℕ))).toNat
            (round ((2 : ℚ) * (1:ℕ))).toNat) := by
  constructor
  · norm_num [trim_audio, Signal.numSamples, Signal.mapChannels, pySlice]
  · norm_num [pySlice, round_eq]
    decide

/-- C3 (amended): for a well-formed non-degenerate request
(`0 ≤ start < end ≤ duration`, `sr > 0`), trim succeeds and slices
`[int(start·sr), int(end·sr))` — truncation, not rounding — identically on
every channel; every output channel has `int(end·sr) - int(start·sr)`
samples, and that count is within ±1 of `round(end·sr) - round(start·sr)`. -/
theorem claim_C3_amended (s : Signal) (sr : ℕ) (st et : ℚ)
    (hwf : s.wellFormed) (hsr : 0 < sr) (h0 : 0 ≤ st) (hlt : st < et)
    (hdur : et ≤ (s.numSamples : ℚ) / sr) :
    trim_audio s sr st (some et)
        = .ok (s.mapChannels (fun l =>
            pySlice l (⌊st * sr⌋).toNat (⌊et * sr⌋).toNat))
    ∧ (s.mapChannels (fun l =>
        pySlice l (⌊st * sr⌋).toNat (⌊et * sr⌋).toNat)).channelLens
        = s.channelLens.map (fun _ => (⌊et * sr⌋).toNat - (⌊st * sr⌋).toNat)
    ∧ (((⌊et * sr⌋).toNat - (⌊st * sr⌋).toNat : ℕ) : ℤ) = ⌊et * sr⌋ - ⌊st * sr⌋
    ∧ |(⌊et * sr⌋ - ⌊st * sr⌋) - (round (et * sr) - round (st * sr))| ≤ 1 := by
  have hsrQ : (0 : ℚ) < (sr : ℚ) := by exact_mod_cast hsr
  have hst : (0 : ℚ) ≤ st * sr := mul_nonneg h0 hsrQ.le
  have hxy : st * sr ≤ et * sr := mul_le_mul_of_nonneg_right hlt.le hsrQ.le
  have het : (0 : ℚ) ≤ et * sr := le_trans hst hxy
  have hfl0 : 0 ≤ ⌊st * (sr : ℚ)⌋ := Int.floor_nonneg.mpr hst
  have hfl0' : 0 ≤ ⌊et * (sr : ℚ)⌋ := Int.floor_nonneg.mpr het
  have hab : ⌊st * (sr : ℚ)⌋ ≤ ⌊et * (sr : ℚ)⌋ := Int.floor_le_floor hxy
  have hbN : ⌊et * (sr : ℚ)⌋ ≤ (s.numSamples : ℤ) := by
    have h1 : et * sr ≤ (s.numSamples : ℚ) := (le_div_iff hsrQ).mp hdur
    calc ⌊et * (sr : ℚ)⌋ ≤ ⌊((s.numSamples : ℚ))⌋ := Int.floor_le_floor h1
      _ = (s.numSamples : ℤ) := Int.floor_natCast _
  have hc1 : ¬ st < 0 := not_lt.mpr h0
  have hc2 : ¬ ((s.numSamples : ℚ) / sr < et) := not_lt.mpr hdur
  have hc3 : ¬ (et ≤ st) := not_le.mpr hlt
  refine ⟨?_, ?_, ?_, ?_⟩
  · simp [trim_audio, Option.getD, hc1, hc2, hc3]
  · have hlen : ∀ l : List ℚ, l.length = s.numSamples →
        (pySlice l (⌊st * sr⌋).toNat (⌊et * sr⌋).toNat).length
          = (⌊et * sr⌋).toNat - (⌊st * sr⌋).toNat := by
      intro l hl
      simp only [pySlice, List.length_take, List.length_drop, hl]
      omega
    cases s with
    | mono l =>
      simp only [Signal.mapChannels, Signal.channelLens, Signal.channels, List.map_cons,
        List.map_nil, List.cons.injEq, and_true]
      exact hlen l rfl
    | stereo a b =>
      simp only [Signal.wellFormed] at hwf
      simp only [Signal.mapChannels, Signal.channelLens, Signal.channels, List.map_cons,
        List.map_nil, List.cons.injEq, and_true]
      exact ⟨hlen a rfl, hlen b hwf.symm⟩
  · omega
  · have r1 : ⌊et * (sr : ℚ)⌋ ≤ round (et * (sr : ℚ)) := by
      rw [round_eq]; exact Int.floor_le_floor (by linarith)
    have r2 : round (et * (sr : ℚ)) ≤ ⌊et * (sr : ℚ)⌋ + 1 := by
      rw [round_eq, ← Int.floor_add_one]
      exact Int.floor_le_floor (by linarith)
    have r3 : ⌊st * (sr : ℚ)⌋ ≤ round (st * (sr : ℚ)) := by
      rw [round_eq]; exact Int.floor_le_floor (by linarith)
    have r4 : round (st * (sr : ℚ)) ≤ ⌊st * (sr : ℚ)⌋ + 1 := by
      rw [round_eq, ← Int.floor_add_one]
      exact Int.floor_le_floor (by linarith)
    rw [abs_le]
    omega

theorem claim_C3_amended_witness :
    trim_audio (Signal.stereo [1, 2, 3] [4, 5, 6]) 2 (1/4) (some (5/4))
        = .ok ((Signal.stereo [1, 2, 3] [4, 5, 6]).mapChannels (fun l =>
            pySlice l (⌊(1/4 : ℚ) * (2:ℕ)⌋).toNat (⌊(5/4 : ℚ) * (2:ℕ)⌋).toNat))
    ∧ ((Signal.stereo [1, 2, 3] [4, 5, 6]).mapChannels (fun l =>
        pySlice l (⌊(1/4 : ℚ) * (2:ℕ)⌋).toNat (⌊(5/4 : ℚ) * (2:ℕ)⌋).toNat)).channelLens
        = (Signal.stereo [1, 2, 3] [4, 5, 6]).channelLens.map
            (fun _ => (⌊(5/4 : ℚ) * (2:ℕ)⌋).toNat - (⌊(1/4 : ℚ) * (2:ℕ)⌋).toNat)
    ∧ (((⌊(5/4 : ℚ) * (2:ℕ)⌋).toNat - (⌊(1/4 : ℚ) * (2:ℕ)⌋).toNat : ℕ) : ℤ)
        = ⌊(5/4 : ℚ) * (2:ℕ)⌋ - ⌊(1/4 : ℚ) * (2:ℕ)⌋
    ∧ |(⌊(5/4 : ℚ) * (2:ℕ)⌋ - ⌊(1/4 : ℚ) * (2:ℕ)⌋)
        - (round ((5/4 : ℚ) * (2:ℕ)) - round ((1/4 : ℚ) * (2:ℕ)))| ≤ 1 :=
  claim_C3_amended (Signal.stereo [1, 2, 3] [4, 5, 6]) 2 (1/4) (5/4)
    rfl (by norm_num) (by norm_num) (by norm_num)
    (by norm_num [Signal.numSamples])

-- Pointwise characterisation of the reverb echo loop.

theorem addInto_length (g : ℚ) (out src : List ℚ) :
    (addInto g out src).length = out.length := by
  induction out generalizing src with
  | nil => cases src <;> rfl
  | cons x xs ih =>
    cases src with
    | nil => rfl
    | cons y ys => simp [addInto, ih]

theorem addInto_getD (g : ℚ) (out src : List ℚ) (j : ℕ) :
    (addInto g out src).getD j 0
      = out.getD j 0
        + (if j < src.length ∧ j < out.length then src.getD j 0 * g else 0) := by
  induction out generalizing src j with
  | nil =>
    cases src <;> simp [addInto]
  | cons x xs ih =>
    cases src with
    | nil => simp [addInto]
    | cons y ys =>
      cases j with
      | zero => simp [addInto]
      | succ n =>
        simp only [addInto, List.getD_cons_succ, List.length_cons, ih,
          Nat.succ_lt_succ_iff, Nat.add_lt_add_iff_right]

theorem addScaledAt_length (out src : List ℚ) (off : ℕ) (g : ℚ) :
    (addScaledAt out src off g).length = out.length := by
  simp only [addScaledAt, List.length_append, List.length_take, addInto_length,
    List.length_drop]
  omega

theorem addScaledAt_getD (out src : List ℚ) (off : ℕ) (g : ℚ) (j : ℕ)
    (hj : j < out.length) :
    (addScaledAt out src off g).getD j 0
      = out.getD j 0
        + (if off ≤ j ∧ j - off < src.length then src.getD (j - off) 0 * g else 0) := by
  by_cases h : j < off
  · rw [addScaledAt, List.getD_append _ _ _ _ (by simp [List.length_take]; omega)]
    have htk : (out.take off).getD j 0 = out.getD j 0 := by
      rw [List.getD_eq_getElem _ _ (by simp [List.length_take]; omega),
        List.getD_eq_getElem _ _ hj]
      exact List.getElem_take out
    rw [htk]
    simp [Nat.not_le.mpr h]
  · push_neg at h
    rw [addScaledAt, List.getD_append_right _ _ _ _ (by simp [List.length_take]; omega),
      addInto_getD]
    have hlt : List.length (List.take off out) = off := by simp [List.length_take]; omega
    rw [hlt]
    have hdg : (out.drop off).getD (j - off) 0 = out.getD j 0 := by
      rw [List.getD_eq_getElem _ _ (by simp [List.length_drop]; omega),
        List.getElem_drop, ← List.getD_eq_getElem _ _ (by omega : off + (j - off) < out.length)]
      congr 1
      omega
    rw [hdg]
    have hcond : (j - off < src.length ∧ j - off < (out.drop off).length)
        ↔ (off ≤ j ∧ j - off < src.length) := by
      simp only [List.length_drop]
      omega
    by_cases hc : off ≤ j ∧ j - off < src.length
    · rw [if_pos (hcond.mpr hc), if_pos hc]
    · rw [if_neg (fun hx => hc (hcond.mp hx)), if_neg hc]

theorem append_replicate_getD (l : List ℚ) (m j : ℕ) :
    (l ++ List.replicate m (0:ℚ)).getD j 0 = if j < l.length then l.getD j 0 else 0 := by
  by_cases h : j < l.length
  · rw [List.getD_append _ _ _ _ h, if_pos h]
  · push_neg at h
    rw [if_neg (Nat.not_lt.mpr h)]
    by_cases h2 : j < l.length + m
    · rw [List.getD_append_right _ _ _ _ h]
      rw [List.getD_eq_getElem _ _ (by simp; omega)]
      simp
    · rw [List.getD_eq_default]
      simp
      omega

theorem reverbChannel_eq (l : List ℚ) (d : ℕ) (decay : ℚ) :
    reverbChannel l d decay
      = addScaledAt (addScaledAt (addScaledAt (addScaledAt (addScaledAt
          (l ++ List.replicate (d * 5) (0:ℚ)) l (d * 1) (decay ^ 1))
          l (d * 2) (decay ^ 2)) l (d * 3) (decay ^ 3))
          l (d * 4) (decay ^ 4)) l (d * 5) (decay ^ 5) := rfl

theorem reverbChannel_length (l : List ℚ) (d : ℕ) (decay : ℚ) :
    (reverbChannel l d decay).length = l.length + d * 5 := by
  rw [reverbChannel_eq]
  simp [addScaledAt_length]

theorem reverbChannel_getD (l : List ℚ) (d : ℕ) (decay : ℚ) (j : ℕ)
    (hj : j < l.length + d * 5) :
    (reverbChannel l d decay).getD j 0
      = (if j < l.length then l.getD j 0 else 0)
        + ∑ i in Finset.range 5,
            (if d * (i + 1) ≤ j ∧ j - d * (i + 1) < l.length
              then l.getD (j - d * (i + 1)) 0 * decay ^ (i + 1) else 0) := by
  have hlen : ∀ k : List ℚ, k.length = l.length + d * 5 →
      ∀ src off g, (addScaledAt k src off g).length = l.length + d * 5 := by
    intro k hk src off g
    rw [addScaledAt_length, hk]
  have h0 : (l ++ List.replicate (d * 5) (0:ℚ)).length = l.length + d * 5 := by simp
  have h1 := hlen _ h0 l (d * 1) (decay ^ 1)
  have h2 := hlen _ h1 l (d * 2) (decay ^ 2)
  have h3 := hlen _ h2 l (d * 3) (decay ^ 3)
  have h4 := hlen _ h3 l (d * 4) (decay ^ 4)
  rw [reverbChannel_eq,
    addScaledAt_getD _ _ _ _ _ (by rw [h4]; exact hj),
    addScaledAt_getD _ _ _ _ _ (by rw [h3]; exact hj),
    addScaledAt_getD _ _ _ _ _ (by rw [h2]; exact hj),
    addScaledAt_getD _ _ _ _ _ (by rw [h1]; exact hj),
    addScaledAt_getD _ _ _ _ _ (by rw [h0]; exact hj),
    append_replicate_getD]
  rw [Finset.sum_range_succ, Finset.sum_range_succ, Finset.sum_range_succ,
    Finset.sum_range_succ, Finset.sum_range_succ, Finset.sum_range_zero]
  norm_num
  ring

/-- Per-channel output lengths of `reverb`. -/
theorem reverb_channelLens (s : Signal) (sr : ℕ) (decay : ℚ) (delay_ms : ℕ) :
    (reverb s sr decay delay_ms).channelLens
      = s.channelLens.map (· + sr * delay_ms / 1000 * 5) := by
  rw [reverb, channelLens_peak_normalize]
  cases s <;> simp [reverbRaw, Signal.mapChannels, Signal.channelLens, Signal.channels,
    reverbChannel_length]

/-- C4 counterexample: at `sr = 11`, `delay_ms = 50` (in bounds) the code's
`delay_samples = int(11·50/1000) = int(0.55) = 0`, so a 1-sample buffer stays
1 sample long, while the claim's `N + 5·round(0.55) = 6` predicts extension. -/
theorem claim_C4_counterexample :
    (reverb (Signal.mono [1]) 11 (1/2) 50).channelLens = [1]
    ∧ ((1:ℤ) ≠ 1 + 5 * round ((11 * 50 : ℚ) / 1000)) := by
  constructor
  · rw [reverb_channelLens]
    norm_num [Signal.channelLens, Signal.channels]
  · norm_num [round_eq]

/-- C4 (amended): `delay_samples` is `int(sr·delay_ms/1000)` — truncation,
not rounding.  For every buffer and in-bound `decay`, `delay_ms`: each output
channel has `N + delay_samples·5` samples; the returned buffer is the
peak-normalisation of the raw echo buffer, whose sample `j` equals the
zero-extended original (`input[j]` for `j < N`, else `0`) plus, for each
reflection `i = 1..5`, `input[j - delay_samples·i]·decay^i` whenever that tap
is in range — i.e. zero-initialised, original in the first `N` samples,
reflections added at offsets `delay_samples·i` truncated to the output. -/
theorem claim_C4_amended (s : Signal) (sr : ℕ) (decay : ℚ) (delay_ms : ℕ)
    (hd1 : 1/10 ≤ decay) (hd2 : decay ≤ 9/10)
    (hm1 : 50 ≤ delay_ms) (hm2 : delay_ms ≤ 300) :
    (reverb s sr decay delay_ms).channelLens
        = s.channelLens.map (· + sr * delay_ms / 1000 * 5)
    ∧ reverb s sr decay delay_ms
        = peak_normalize (reverbRaw s (sr * delay_ms / 1000) decay) (19/20)
    ∧ ∀ l ∈ s.channels, ∀ j, j < l.length + sr * delay_ms / 1000 * 5 →
        (reverbChannel l (sr * delay_ms / 1000) decay).getD j 0
          = (if j < l.length then l.getD j 0 else 0)
            + ∑ i in Finset.range 5,
                (if sr * delay_ms / 1000 * (i + 1) ≤ j
                    ∧ j - sr * delay_ms / 1000 * (i + 1) < l.length
                  then l.getD (j - sr * delay_ms / 1000 * (i + 1)) 0 * decay ^ (i + 1)
                  else 0) :=
  ⟨reverb_channelLens s sr decay delay_ms, rfl,
   fun l _ j hj => reverbChannel_getD l (sr * delay_ms / 1000) decay j hj⟩

theorem claim_C4_amended_witness :
    (reverb (Signal.mono [2]) 1000 (1/2) 50).channelLens
        = (Signal.mono [2]).channelLens.map (· + 1000 * 50 / 1000 * 5)
    ∧ reverb (Signal.mono [2]) 1000 (1/2) 50
        = peak_normalize (reverbRaw (Signal.mono [2]) (1000 * 50 / 1000) (1/2)) (19/20)
    ∧ (reverbChannel [2] (1000 * 50 / 1000) (1/2)).getD 0 0
        = (if 0 < ([2] : List ℚ).length then ([2] : List ℚ).getD 0 0 else 0)
          + ∑ i in Finset.range 5,
              (if 1000 * 50 / 1000 * (i + 1) ≤ 0
                  ∧ 0 - 1000 * 50 / 1000 * (i + 1) < ([2] : List ℚ).length
                then ([2] : List ℚ).getD (0 - 1000 * 50 / 1000 * (i + 1)) 0 * (1/2) ^ (i + 1)
                else 0) := by
  have h := claim_C4_amended (Signal.mono [2]) 1000 (1/2) 50
    (by norm_num) (by norm_num) (by norm_num) (by norm_num)
  exact ⟨h.1, h.2.1,
    h.2.2 [2] (by simp [Signal.channels]) 0 (by norm_num)⟩

/-- C8: for every in-bound crossfeed (including `0`, where the code skips the
step but the formula degenerates to the identity), `eight_d_audio` equals the
normalisation of the stereo pair in which the left channel is
`left_out*(1-crossfeed) + right_out*crossfeed` and the right channel is
recomputed from the **already-updated** left channel; per-channel output
length equals the input's per-channel length `N` (no extension). -/
theorem claim_C8 (F : FloatOps) (s : Signal) (sr : ℕ) (ps it cf : ℚ)
    (h0 : 0 ≤ cf) (h1 : cf ≤ 3/5) :
    eight_d_audio F s sr ps it cf
      = peak_normalize (.stereo
          ((List.range (ensureStereo s).1.length).map
            (fun n => eightD_leftOut F s sr ps it n * (1 - cf)
              + eightD_rightOut F s sr ps it n * cf))
          ((List.range (ensureStereo s).1.length).map
            (fun n => eightD_rightOut F s sr ps it n * (1 - cf)
              + (eightD_leftOut F s sr ps it n * (1 - cf)
                  + eightD_rightOut F s sr ps it n * cf) * cf)))
        (19/20)
    ∧ (eight_d_audio F s sr ps it cf).channelLens
        = [(ensureStereo s).1.length, (ensureStereo s).1.length] := by
  constructor
  · by_cases hc : 0 < cf
    · simp only [eight_d_audio, if_pos hc]
    · have hcf : cf = 0 := le_antisymm (not_lt.mp hc) h0
      subst hcf
      simp only [eight_d_audio, if_neg hc]
      have e1 : (fun n => eightD_leftOut F s sr ps it n * (1 - (0:ℚ))
            + eightD_rightOut F s sr ps it n * (0:ℚ))
          = fun n => eightD_leftOut F s sr ps it n := by
        funext n; ring
      have e2 : (fun n => eightD_rightOut F s sr ps it n * (1 - (0:ℚ))
            + (eightD_leftOut F s sr ps it n * (1 - (0:ℚ))
                + eightD_rightOut F s sr ps it n * (0:ℚ)) * (0:ℚ))
          = fun n => eightD_rightOut F s sr ps it n := by
        funext n; ring
      rw [e1, e2]
  · unfold eight_d_audio
    split <;>
      (rw [channelLens_peak_normalize];
       simp [Signal.channelLens, Signal.channels])

theorem claim_C8_witness :
    eight_d_audio F0 (Signal.mono [1]) 2 (3/20) (4/5) (3/10)
      = peak_normalize (.stereo
          ((List.range (ensureStereo (Signal.mono [1])).1.length).map
            (fun n => eightD_leftOut F0 (Signal.mono [1]) 2 (3/20) (4/5) n * (1 - 3/10)
              + eightD_rightOut F0 (Signal.mono [1]) 2 (3/20) (4/5) n * (3/10)))
          ((List.range (ensureStereo (Signal.mono [1])).1.length).map
            (fun n => eightD_rightOut F0 (Signal.mono [1]) 2 (3/20) (4/5) n * (1 - 3/10)
              + (eightD_leftOut F0 (Signal.mono [1]) 2 (3/20) (4/5) n * (1 - 3/10)
                  + eightD_rightOut F0 (Signal.mono [1]) 2 (3/20) (4/5) n * (3/10)) * (3/10))))
        (19/20)
    ∧ (eight_d_audio F0 (Signal.mono [1]) 2 (3/20) (4/5) (3/10)).channelLens
        = [(ensureStereo (Signal.mono [1])).1.length,
           (ensureStereo (Signal.mono [1])).1.length] :=
  claim_C8 F0 (Signal.mono [1]) 2 (3/20) (4/5) (3/10) (by norm_num) (by norm_num)

-- The intermediate arrays of `stereo_widen` on a mono input, named so the
-- channel-difference argument can speak about them: the left-padded channel,
-- the delayed-and-scaled right channel, and the final left/right channels.

def widenLP (l : List ℚ) (d : ℕ) : List ℚ :=
  l ++ List.replicate d 0

def widenRD (l : List ℚ) (d : ℕ) (g : ℚ) : List ℚ :=
  (List.replicate d (0:ℚ) ++ l).map (· * g)

def widenNL (l : List ℚ) (d : ℕ) (g : ℚ) : List ℚ :=
  List.zipWith (· + ·)
    (List.zipWith (fun a b => (a + b) / 2) (widenLP l d) (widenRD l d g))
    ((List.zipWith (fun a b => (a - b) / 2) (widenLP l d) (widenRD l d g)).map (· * (13/10)))

def widenNR (l : List ℚ) (d : ℕ) (g : ℚ) : List ℚ :=
  List.zipWith (· - ·)
    (List.zipWith (fun a b => (a + b) / 2) (widenLP l d) (widenRD l d g))
    ((List.zipWith (fun a b => (a - b) / 2) (widenLP l d) (widenRD l d g)).map (· * (13/10)))

theorem stereo_widen_mono (F : FloatOps) (l : List ℚ) (sr delay_ms : ℕ) (gdb : ℚ) :
    stereo_widen F (.mono l) sr delay_ms gdb
      = peak_normalize
          (.stereo (widenNL l (sr * delay_ms / 1000) (F.exp10 (-gdb / 20)))
                   (widenNR l (sr * delay_ms / 1000) (F.exp10 (-gdb / 20)))) (19/20) := rfl

theorem widenLP_length (l : List ℚ) (d : ℕ) : (widenLP l d).length = l.length + d := by
  simp [widenLP]

theorem widenRD_length (l : List ℚ) (d : ℕ) (g : ℚ) :
    (widenRD l d g).length = d + l.length := by
  simp [widenRD]

theorem widenNL_length (l : List ℚ) (d : ℕ) (g : ℚ) :
    (widenNL l d g).length = l.length + d := by
  simp only [widenNL, List.length_zipWith, List.length_map, widenLP_length, widenRD_length]
  omega

theorem widenNR_length (l : List ℚ) (d : ℕ) (g : ℚ) :
    (widenNR l d g).length = l.length + d := by
  simp only [widenNR, List.length_zipWith, List.length_map, widenLP_length, widenRD_length]
  omega

theorem widenLP_getD (l : List ℚ) (d : ℕ) (n : ℕ) :
    (widenLP l d).getD n 0 = if n < l.length then l.getD n 0 else 0 :=
  append_replicate_getD l d n

theorem widenRD_getD (l : List ℚ) (d : ℕ) (g : ℚ) (n : ℕ) :
    (widenRD l d g).getD n 0 = if n < d then 0 else l.getD (n - d) 0 * g := by
  by_cases h1 : n < d + l.length
  · have hn : n < (List.replicate d (0:ℚ) ++ l).length := by simp; omega
    have hmap : (widenRD l d g).getD n 0
        = (List.replicate d (0:ℚ) ++ l).getD n 0 * g := by
      unfold widenRD
      rw [List.getD_eq_getElem _ _ (by simpa using hn), List.getElem_map,
        List.getD_eq_getElem _ _ hn]
    rw [hmap]
    by_cases h2 : n < d
    · rw [if_pos h2, List.getD_append _ _ _ _ (by simpa using h2),
        List.getD_eq_getElem _ _ (by simpa using h2)]
      simp
    · push_neg at h2
      rw [if_neg (not_lt.mpr h2), List.getD_append_right _ _ _ _ (by simpa using h2)]
      simp
  · push_neg at h1
    rw [List.getD_eq_default _ _ (by rw [widenRD_length]; omega),
      if_neg (by omega), List.getD_eq_default _ _ (by omega), zero_mul]

theorem widenNL_getD (l : List ℚ) (d : ℕ) (g : ℚ) (n : ℕ) (hn : n < l.length + d) :
    (widenNL l d g).getD n 0
      = ((widenLP l d).getD n 0 + (widenRD l d g).getD n 0) / 2
        + ((widenLP l d).getD n 0 - (widenRD l d g).getD n 0) / 2 * (13/10) := by
  have h1 : n < (widenNL l d g).length := by rw [widenNL_length]; exact hn
  rw [List.getD_eq_getElem _ _ h1]
  unfold widenNL
  rw [List.getElem_zipWith, List.getElem_zipWith, List.getElem_map, List.getElem_zipWith,
    List.getD_eq_getElem _ _ (by rw [widenLP_length]; omega),
    List.getD_eq_getElem _ _ (by rw [widenRD_length]; omega)]

theorem widenNR_getD (l : List ℚ) (d : ℕ) (g : ℚ) (n : ℕ) (hn : n < l.length + d) :
    (widenNR l d g).getD n 0
      = ((widenLP l d).getD n 0 + (widenRD l d g).getD n 0) / 2
        - ((widenLP l d).getD n 0 - (widenRD l d g).getD n 0) / 2 * (13/10) := by
  have h1 : n < (widenNR l d g).length := by rw [widenNR_length]; exact hn
  rw [List.getD_eq_getElem _ _ h1]
  unfold widenNR
  rw [List.getElem_zipWith, List.getElem_zipWith, List.getElem_map, List.getElem_zipWith,
    List.getD_eq_getElem _ _ (by rw [widenLP_length]; omega),
    List.getD_eq_getElem _ _ (by rw [widenRD_length]; omega)]

/-- If the widening's padded-left and delayed-scaled-right arrays agree
everywhere (and the gain factor is neither `0` nor `1`), the input channel
is identically zero. -/
theorem widen_all_eq_imp_zero (l : List ℚ) (d : ℕ) (g : ℚ) (hg0 : g ≠ 0)
    (hg1 : g ≠ 1)
    (h : ∀ n, (widenLP l d).getD n 0 = (widenRD l d g).getD n 0) :
    ∀ i, l.getD i 0 = 0 := by
  intro i
  induction i using Nat.strong_induction_on with
  | _ i ih =>
    by_cases hi : i < l.length
    · have hh := h i
      rw [widenLP_getD, widenRD_getD, if_pos hi] at hh
      by_cases hid : i < d
      · rw [if_pos hid] at hh
        exact hh
      · rw [if_neg hid] at hh
        push_neg at hid
        rcases Nat.eq_zero_or_pos d with hd0 | hdpos
        · subst hd0
          rw [Nat.sub_zero] at hh
          have h2 : l.getD i 0 * (1 - g) = 0 := by
            rw [mul_sub, mul_one]
            linarith
          rcases mul_eq_zero.mp h2 with h3 | h3
          · exact h3
          · exact absurd (by linarith : g = 1) hg1
        · have h4 : l.getD (i - d) 0 = 0 := ih (i - d) (by omega)
          rw [h4, zero_mul] at hh
          exact hh
    · exact List.getD_eq_default _ _ (not_lt.mp hi)

theorem numChannels_peak_normalize (s : Signal) (tp : ℚ) :
    (peak_normalize s tp).numChannels = s.numChannels := by
  simp only [peak_normalize]
  split
  · rfl
  · cases s <;> rfl

/-- A second fixed interpretation of the float operations whose `10^x`
component returns `0.708` (a stand-in for `10^(-1.5/20) ≈ 0.7079`), used for
the stereo-widen instances. -/
def Fc : FloatOps :=
  ⟨fun _ => 0, fun _ => 1, fun _ => 0, fun _ => 708/1000, 3, fun _ _ l => l⟩

/-- C9 counterexample: on the silent mono buffer `[0]` with in-bound
`delay_ms = 10` and `gain_diff_db = 3 > 0`, both output channels are the
same all-zero list, so "the two output channels are not identical" fails
for this mono input. -/
theorem claim_C9_counterexample :
    stereo_widen Fc (Signal.mono [0]) 100 10 3 = Signal.stereo [0, 0] [0, 0] := by
  norm_num [stereo_widen, ensureStereo, peak_normalize, peakAbs, Signal.allSamples,
    listPeak_cons, listPeak_nil, List.zipWith, Fc]

/-- C9 (amended): for every *non-silent* mono input of length `N` and
in-bound parameters with `gain_diff_db > 0` (so the gain factor
`10^(-gain_diff_db/20)` lies strictly between `0` and `1`, which enters as a
hypothesis on the abstract exponential), `stereo_widen` yields a two-channel
buffer of per-channel length `N + delay_samples`
(`delay_samples = int(sr·delay_ms/1000)`), and the two output channels are
not identical.  The non-silence restriction is forced by the counterexample:
an all-zero input produces identical all-zero channels. -/
theorem claim_C9_amended (F : FloatOps) (l : List ℚ) (sr delay_ms : ℕ) (gdb : ℚ)
    (hdm1 : 5 ≤ delay_ms) (hdm2 : delay_ms ≤ 20) (hgdb : 0 < gdb) (hgdb2 : gdb ≤ 6)
    (hFg : 0 < F.exp10 (-gdb / 20)) (hFg1 : F.exp10 (-gdb / 20) < 1)
    (hsil : listPeak l ≠ 0) :
    (stereo_widen F (.mono l) sr delay_ms gdb).numChannels = 2
    ∧ (stereo_widen F (.mono l) sr delay_ms gdb).channelLens
        = [l.length + sr * delay_ms / 1000, l.length + sr * delay_ms / 1000]
    ∧ (stereo_widen F (.mono l) sr delay_ms gdb).channels.getD 0 []
        ≠ (stereo_widen F (.mono l) sr delay_ms gdb).channels.getD 1 [] := by
  have hg0 : F.exp10 (-gdb / 20) ≠ 0 := ne_of_gt hFg
  have hg1 : F.exp10 (-gdb / 20) ≠ 1 := ne_of_lt hFg1
  obtain ⟨n, hnlt, hne⟩ : ∃ n, n < l.length + sr * delay_ms / 1000
      ∧ (widenLP l (sr * delay_ms / 1000)).getD n 0
          ≠ (widenRD l (sr * delay_ms / 1000) (F.exp10 (-gdb / 20))).getD n 0 := by
    by_contra hno
    push_neg at hno
    have hall : ∀ n, (widenLP l (sr * delay_ms / 1000)).getD n 0
        = (widenRD l (sr * delay_ms / 1000) (F.exp10 (-gdb / 20))).getD n 0 := by
      intro n
      by_cases hn : n < l.length + sr * delay_ms / 1000
      · exact hno n hn
      · rw [List.getD_eq_default _ _ (by rw [widenLP_length]; omega),
          List.getD_eq_default _ _ (by rw [widenRD_length]; omega)]
    have hz := widen_all_eq_imp_zero l (sr * delay_ms / 1000) (F.exp10 (-gdb / 20))
      hg0 hg1 hall
    apply hsil
    rw [listPeak_eq_zero_iff]
    intro x hx
    obtain ⟨i, hi, rfl⟩ := List.getElem_of_mem hx
    have := hz i
    rwa [List.getD_eq_getElem _ _ hi] at this
  have hNLn := widenNL_getD l (sr * delay_ms / 1000) (F.exp10 (-gdb / 20)) n hnlt
  have hNRn := widenNR_getD l (sr * delay_ms / 1000) (F.exp10 (-gdb / 20)) n hnlt
  have hdiffn : (widenNL l (sr * delay_ms / 1000) (F.exp10 (-gdb / 20))).getD n 0
      ≠ (widenNR l (sr * delay_ms / 1000) (F.exp10 (-gdb / 20))).getD n 0 := by
    rw [hNLn, hNRn]
    intro he
    apply hne
    have h2 : ((widenLP l (sr * delay_ms / 1000)).getD n 0
        - (widenRD l (sr * delay_ms / 1000) (F.exp10 (-gdb / 20))).getD n 0) * (13/10)
          = 0 := by linarith
    rcases mul_eq_zero.mp h2 with h3 | h3
    · linarith
    · norm_num at h3
  have hpk : peakAbs (Signal.stereo (widenNL l (sr * delay_ms / 1000) (F.exp10 (-gdb / 20)))
      (widenNR l (sr * delay_ms / 1000) (F.exp10 (-gdb / 20)))) ≠ 0 := by
    intro h0
    apply hdiffn
    rw [peakAbs, Signal.allSamples, listPeak_eq_zero_iff] at h0
    have hNL0 : (widenNL l (sr * delay_ms / 1000) (F.exp10 (-gdb / 20))).getD n 0 = 0 := by
      have hn2 : n < (widenNL l (sr * delay_ms / 1000) (F.exp10 (-gdb / 20))).length := by
        rw [widenNL_length]; exact hnlt
      refine h0 _ (List.mem_append_left _ ?_)
      rw [List.getD_eq_getElem _ _ hn2]
      exact List.getElem_mem _
    have hNR0 : (widenNR l (sr * delay_ms / 1000) (F.exp10 (-gdb / 20))).getD n 0 = 0 := by
      have hn2 : n < (widenNR l (sr * delay_ms / 1000) (F.exp10 (-gdb / 20))).length := by
        rw [widenNR_length]; exact hnlt
      refine h0 _ (List.mem_append_right _ ?_)
      rw [List.getD_eq_getElem _ _ hn2]
      exact List.getElem_mem _
    rw [hNL0, hNR0]
  refine ⟨?_, ?_, ?_⟩
  · rw [stereo_widen_mono, numChannels_peak_normalize]
    rfl
  · rw [stereo_widen_mono, channelLens_peak_normalize]
    simp [Signal.channelLens, Signal.channels, widenNL_length, widenNR_length]
  · rw [stereo_widen_mono, peak_normalize_scaled _ _ hpk]
    simp only [Signal.scale, Signal.mapChannels, Signal.channels, List.getD_cons_zero,
      List.getD_cons_succ]
    intro he
    apply hdiffn
    have hc0 : (19/20 : ℚ) / peakAbs (Signal.stereo
        (widenNL l (sr * delay_ms / 1000) (F.exp10 (-gdb / 20)))
        (widenNR l (sr * delay_ms / 1000) (F.exp10 (-gdb / 20)))) ≠ 0 :=
      div_ne_zero (by norm_num) hpk
    have e1 : ((widenNL l (sr * delay_ms / 1000) (F.exp10 (-gdb / 20))).map
        (· * ((19/20 : ℚ) / peakAbs (Signal.stereo
          (widenNL l (sr * delay_ms / 1000) (F.exp10 (-gdb / 20)))
          (widenNR l (sr * delay_ms / 1000) (F.exp10 (-gdb / 20))))))).getD n 0
        = (widenNL l (sr * delay_ms / 1000) (F.exp10 (-gdb / 20))).getD n 0
          * ((19/20 : ℚ) / peakAbs (Signal.stereo
            (widenNL l (sr * delay_ms / 1000) (F.exp10 (-gdb / 20)))
            (widenNR l (sr * delay_ms / 1000) (F.exp10 (-gdb / 20)))))  := by
      rw [List.getD_eq_getElem _ _ (by simp [widenNL_length]; omega),
        List.getElem_map, List.getD_eq_getElem _ _ (by rw [widenNL_length]; omega)]
    have e2 : ((widenNR l (sr * delay_ms / 1000) (F.exp10 (-gdb / 20))).map
        (· * ((19/20 : ℚ) / peakAbs (Signal.stereo
          (widenNL l (sr * delay_ms / 1000) (F.exp10 (-gdb / 20)))
          (widenNR l (sr * delay_ms / 1000) (F.exp10 (-gdb / 20))))))).getD n 0
        = (widenNR l (sr * delay_ms / 1000) (F.exp10 (-gdb / 20))).getD n 0
          * ((19/20 : ℚ) / peakAbs (Signal.stereo
            (widenNL l (sr * delay_ms / 1000) (F.exp10 (-gdb / 20)))
            (widenNR l (sr * delay_ms / 1000) (F.exp10 (-gdb / 20)))))  := by
      rw [List.getD_eq_getElem _ _ (by simp [widenNR_length]; omega),
        List.getElem_map, List.getD_eq_getElem _ _ (by rw [widenNR_length]; omega)]
    have := congrArg (fun t => t.getD n 0) he
    simp only at this
    rw [e1, e2] at this
    exact mul_right_cancel₀ hc0 this

theorem claim_C9_amended_witness :
    (stereo_widen Fc (Signal.mono [1]) 100 10 3).numChannels = 2
    ∧ (stereo_widen Fc (Signal.mono [1]) 100 10 3).channelLens
        = [([1] : List ℚ).length + 100 * 10 / 1000, ([1] : List ℚ).length + 100 * 10 / 1000]
    ∧ (stereo_widen Fc (Signal.mono [1]) 100 10 3).channels.getD 0 []
        ≠ (stereo_widen Fc (Signal.mono [1]) 100 10 3).channels.getD 1 [] :=
  claim_C9_amended Fc [1] 100 10 3 (by norm_num) (by norm_num) (by norm_num) (by norm_num)
    (by norm_num [Fc]) (by norm_num [Fc])
    (by norm_num [listPeak_cons, listPeak_nil])
